import Mathlib

/-!
Verification of the skill dependency resolver (`scripts/skill_resolver.py`).

The Python module is shallowly embedded: dataclasses become structures,
Python dicts become association lists (`dictGet` for `d[k]` / `k in d`,
`dictInsert` for `d[k] = v`), Python sets become `Finset String`, and the
recursive traversals (`resolve_skill_dependencies`, `get_tools_for_skill`,
`detect_circular_dependencies`) become fuel-indexed structurally recursive
functions whose fuel bound `|registry| + 1` dominates the recursion depth
(each recursive frame inserts a fresh registry key into the `unresolved` /
`resolved` / `visited` set).  The ambient process environment read by
`validate_skill` via `os.environ` is passed explicitly as an association
list.  Filesystem concerns (`SKILLS_DIR`, `SKILL.md` reading, YAML parsing)
are out of scope: `parse_skill` is modelled from the already-parsed
frontmatter mapping onwards, mirroring the spec's input-collaborator
boundary.
-/

/-- Mirrors dataclass `ToolParameter` (`default: Any = None` is modelled as
an optional scalar). -/
structure ToolParameter where
  name : String
  type : String := "string"
  required : Bool := false
  default : Option String := none
  description : String := ""
deriving DecidableEq, Repr

/-- Mirrors dataclass `ToolDefinition`. -/
structure ToolDefinition where
  name : String
  category : String
  description : String
  command : String := ""
  parameters : List ToolParameter := []
  examples : List String := []
  aliases : List String := []
deriving DecidableEq, Repr

/-- Mirrors dataclass `SkillDependency`. -/
structure SkillDependency where
  name : String
  required : Bool := true
  reason : String := ""
  auto_load : Bool := false
deriving DecidableEq, Repr

/-- Mirrors dataclass `PackageDependency`. -/
structure PackageDependency where
  name : String
  version : String := ""
  install : String := ""
deriving DecidableEq, Repr

/-- Mirrors dataclass `EnvironmentRequirement`. -/
structure EnvironmentRequirement where
  name : String
  required : Bool := true
  description : String := ""
deriving DecidableEq, Repr

/-- The `parsed_deps` dictionary built in `parse_skill`: it always carries
exactly the keys `"skills"`, `"packages"` and `"environment"`. -/
structure DependencySpec where
  skills : List SkillDependency := []
  packages : List PackageDependency := []
  environment : List EnvironmentRequirement := []
deriving DecidableEq, Repr

/-- Mirrors dataclass `SkillMeta` (the filesystem `path` and the raw
frontmatter bookkeeping fields are not modelled; no claim reads them). -/
structure SkillMeta where
  name : String
  description : String
  version : String := "1.0.0"
  tools : List ToolDefinition := []
  dependencies : DependencySpec := {}
deriving DecidableEq, Repr

/-- Python dict lookup `d.get(k)` / `d[k]` / `k in d` over an association
list keyed by strings. -/
def dictGet {α : Type} (k : String) : List (String × α) → Option α
  | [] => none
  | (k', v) :: rest => if k = k' then some v else dictGet k rest

/-- Python dict assignment `d[k] = v`: replaces the value in place when the
key exists, otherwise appends the binding. -/
def dictInsert {α : Type} : List (String × α) → String → α → List (String × α)
  | [], k, v => [(k, v)]
  | (k', v') :: rest, k, v =>
    if k' = k then (k, v) :: rest else (k', v') :: dictInsert rest k v

/-- A loaded registry: the dict produced by `collect_all_skills`. -/
abbrev Registry := List (String × SkillMeta)

/-- The dependency names the resolver follows: the body of the loop
`for dep in skill.dependencies.get("skills", []): if dep.required or
dep.auto_load: ...` in `resolve_skill_dependencies`. -/
def reqAutoNames (sk : SkillMeta) : List String :=
  (sk.dependencies.skills.filter (fun d => d.required || d.auto_load)).map (fun d => d.name)

/-- The two traversal sets threaded through `resolve_skill_dependencies`
(Python mutates them in place; here they are passed and returned). -/
structure RSt where
  resolved : Finset String
  unresolved : Finset String
deriving DecidableEq

/-- The dependency loop of `resolve_skill_dependencies`: runs `rec` on each
name in sequence, threading the state and concatenating the local
`order` / `missing` lists exactly as the Python `extend` calls do. -/
def depsFold (rec : String → RSt → List String × List String × RSt) :
    List String → RSt → List String × List String × RSt
  | [], st => ([], [], st)
  | d :: ds, st =>
    let r1 := rec d st
    let r2 := depsFold rec ds r1.2.2
    (r1.1 ++ r2.1, r1.2.1 ++ r2.2.1, r2.2.2)

/-- Fuel-indexed embedding of `resolve_skill_dependencies`.  The branches
appear in source order: the `unresolved` (cycle) check, the `resolved`
check, the registry-membership check, then the recursive expansion that
pushes the name on `unresolved`, resolves each required/auto-load
dependency, pops the name, marks it resolved and appends it post-order. -/
def resolveFuel (skills : Registry) : Nat → String → RSt → List String × List String × RSt
  | 0, _, st => ([], [], st)
  | fuel + 1, skill_name, st =>
    if skill_name ∈ st.unresolved then
      ([], ["Circular dependency detected: " ++ skill_name], st)
    else if skill_name ∈ st.resolved then
      ([], [], st)
    else
      match dictGet skill_name skills with
      | none => ([], ["Skill not found: " ++ skill_name], st)
      | some skill =>
        let r := depsFold (resolveFuel skills fuel) (reqAutoNames skill)
          ⟨st.resolved, insert skill_name st.unresolved⟩
        (r.1 ++ [skill_name], r.2.1,
          ⟨insert skill_name r.2.2.resolved, r.2.2.unresolved.erase skill_name⟩)

/-- Top-level `resolve_skill_dependencies(skill_name, skills)` with the
default fresh `resolved` / `unresolved` sets.  `skills.length + 1` fuel
dominates the recursion depth (proved by the stabilization theorem for
claim C5). -/
def resolve_skill_dependencies (skills : Registry) (skill_name : String) :
    List String × List String :=
  let r := resolveFuel skills (skills.length + 1) skill_name ⟨∅, ∅⟩
  (r.1, r.2.1)

/-- The dependency names `get_tools_for_skill` follows: the loop
`for dep in skill.dependencies.get("skills", []): if dep.auto_load: ...`. -/
def autoNames (sk : SkillMeta) : List String :=
  (sk.dependencies.skills.filter (fun d => d.auto_load)).map (fun d => d.name)

/-- The dependency loop of the inner `collect_tools` closure: runs `rec` on
each auto-load dependency in declaration order, threading the memo set and
concatenating the collected tools. -/
def toolsFold (rec : String → Finset String → List ToolDefinition × Finset String) :
    List String → Finset String → List ToolDefinition × Finset String
  | [], res => ([], res)
  | d :: ds, res =>
    let r1 := rec d res
    let r2 := toolsFold rec ds r1.2
    (r1.1 ++ r2.1, r2.2)

/-- Fuel-indexed embedding of the `collect_tools` closure inside
`get_tools_for_skill`: return early when the name is memoized or absent,
otherwise memoize it, recurse into the auto-load dependencies first, then
append the skill's own tools. -/
def collectToolsFuel (skills : Registry) :
    Nat → String → Finset String → List ToolDefinition × Finset String
  | 0, _, res => ([], res)
  | fuel + 1, name, res =>
    if name ∈ res then ([], res)
    else
      match dictGet name skills with
      | none => ([], res)
      | some skill =>
        let r := toolsFold (collectToolsFuel skills fuel) (autoNames skill) (insert name res)
        (r.1 ++ skill.tools, r.2)

/-- Top-level `get_tools_for_skill(skill_name, skills)` with the fresh
`resolved` memo set.  `skills.length + 1` fuel dominates the recursion
depth (proved by the stabilization theorem for claim C10). -/
def get_tools_for_skill (skills : Registry) (skill_name : String) : List ToolDefinition :=
  (collectToolsFuel skills (skills.length + 1) skill_name ∅).1

/-- The `parameters` entries of a `tool_def` dictionary built by
`generate_tool_manifest`. -/
structure ManifestParameter where
  name : String
  type : String
  required : Bool
  default : Option String
  description : String
deriving DecidableEq, Repr

/-- A `tool_def` dictionary built by `generate_tool_manifest`. -/
structure ManifestTool where
  name : String
  category : String
  description : String
  command : String
  parameters : List ManifestParameter
  examples : List String
  aliases : List String
deriving DecidableEq, Repr

/-- The `manifest` dictionary returned by `generate_tool_manifest`.  Its
`tool_index` dict is modelled as an association list in which the most
recent assignment stands first, so `dictGet` sees exactly the
last-write-wins lookup behavior of the Python dict. -/
structure Manifest where
  skill : String
  tools : List ManifestTool
  tool_index : List (String × ManifestTool)
deriving DecidableEq, Repr

/-- The `tool_def` dictionary built for one tool in `generate_tool_manifest`. -/
def toolDefEntry (t : ToolDefinition) : ManifestTool :=
  { name := t.name
    category := t.category
    description := t.description
    command := t.command
    parameters := t.parameters.map (fun p =>
      { name := p.name, type := p.type, required := p.required,
        default := p.default, description := p.description })
    examples := t.examples
    aliases := t.aliases }

/-- The two index assignments done for one tool:
`manifest["tool_index"][tool.name] = tool_def` followed by
`manifest["tool_index"][alias] = tool_def` for each alias in order.  A
later assignment is prepended so `dictGet` returns it first. -/
def indexWrites (idx : List (String × ManifestTool)) (t : ToolDefinition) :
    List (String × ManifestTool) :=
  t.aliases.foldl (fun acc a => (a, toolDefEntry t) :: acc) ((t.name, toolDefEntry t) :: idx)

/-- The `tool_index` dict accumulated over the tool list in traversal
order. -/
def buildToolIndex (tools : List ToolDefinition) : List (String × ManifestTool) :=
  tools.foldl indexWrites []

/-- Embedding of `generate_tool_manifest(skill_name, skills)`. -/
def generate_tool_manifest (skills : Registry) (skill_name : String) : Manifest :=
  let tools := get_tools_for_skill skills skill_name
  { skill := skill_name
    tools := tools.map toolDefEntry
    tool_index := buildToolIndex tools }

/-- The loop over dependency edges inside the `dfs` closure of
`detect_circular_dependencies`: every child runs with the shared `visited`
set threaded through and its own copy of the current path; the recorded
cycles are concatenated in visit order. -/
def cyclesFold (rec : String → Finset String → List (List String) × Finset String) :
    List String → Finset String → List (List String) × Finset String
  | [], visited => ([], visited)
  | d :: ds, visited =>
    let r1 := rec d visited
    let r2 := cyclesFold rec ds r1.2
    (r1.1 ++ r2.1, r2.2)

/-- Fuel-indexed embedding of the `dfs` closure of
`detect_circular_dependencies`: a name already on the current path records
the sub-path from its first occurrence plus the repeat as one cycle; a
visited name returns; otherwise the name is marked visited, appended to the
path, and every dependency edge present in the registry is followed
regardless of its `required` / `auto_load` flags. -/
def dfsCycles (skills : Registry) :
    Nat → String → Finset String → List String → List (List String) × Finset String
  | 0, _, visited, _ => ([], visited)
  | fuel + 1, skill_name, visited, path =>
    if skill_name ∈ path then
      ([path.drop (path.indexOf skill_name) ++ [skill_name]], visited)
    else if skill_name ∈ visited then
      ([], visited)
    else
      match dictGet skill_name skills with
      | none => ([], insert skill_name visited)
      | some skill =>
        cyclesFold (fun d v => dfsCycles skills fuel d v (path ++ [skill_name]))
          ((skill.dependencies.skills.filter
            (fun d => (dictGet d.name skills).isSome)).map (fun d => d.name))
          (insert skill_name visited)

/-- Embedding of `detect_circular_dependencies(skills)`: the traversal
restarts from every registry key in turn, each start with a fresh visited
set and an empty path, and all recorded cycles are concatenated. -/
def detect_circular_dependencies (skills : Registry) : List (List String) :=
  (skills.map (fun p => p.1)).flatMap
    (fun n => (dfsCycles skills (skills.length + 1) n ∅ []).1)

/-- Python truthiness of `os.environ.get(name)`: falsy when the variable is
absent or holds the empty string.  The ambient environment is passed as an
association list. -/
def envFalsy (environ : List (String × String)) (name : String) : Bool :=
  match dictGet name environ with
  | none => true
  | some v => v = ""

/-- Embedding of `validate_skill(skill_name, skills)`, with the process
environment made an explicit argument.  The three error loops run in
source order: missing dependency targets, missing required environment
variables, then malformed tool entries (`name` check before `category`
check for each tool). -/
def validate_skill (skill_name : String) (skills : Registry)
    (environ : List (String × String)) : List String :=
  match dictGet skill_name skills with
  | none => ["Skill '" ++ skill_name ++ "' not found"]
  | some skill =>
    let depErrors := (skill.dependencies.skills.filter
        (fun d => (dictGet d.name skills).isNone)).map
      (fun d => "Missing dependency: '" ++ d.name ++ "' required by '" ++ skill_name ++ "'")
    let envErrors := (skill.dependencies.environment.filter
        (fun e => e.required && envFalsy environ e.name)).map
      (fun e => "Missing required environment variable: " ++ e.name)
    let toolErrors := skill.tools.flatMap (fun t =>
      (if t.name = "" then ["Tool missing 'name' in skill '" ++ skill_name ++ "'"] else []) ++
      (if t.category = "" then
        ["Tool '" ++ t.name ++ "' missing 'category' in skill '" ++ skill_name ++ "'"]
      else []))
    depErrors ++ envErrors ++ toolErrors

/-- Parsed frontmatter of one tool parameter entry. -/
structure ToolParameterFrontmatter where
  name : Option String := none
  type : Option String := none
  required : Option Bool := none
  default : Option String := none
  description : Option String := none
deriving DecidableEq, Repr

/-- Parsed frontmatter of one tool entry, with every field optional as in
the Python dict reads of `parse_tool`. -/
structure ToolFrontmatter where
  name : Option String := none
  category : Option String := none
  description : Option String := none
  command : Option String := none
  parameters : List ToolParameterFrontmatter := []
  examples : Option (List String) := none
  aliases : Option (List String) := none
deriving DecidableEq, Repr

/-- Parsed frontmatter of one skill-dependency entry. -/
structure SkillDependencyFrontmatter where
  name : Option String := none
  required : Option Bool := none
  reason : Option String := none
  auto_load : Option Bool := none
deriving DecidableEq, Repr

/-- Parsed frontmatter of one package-dependency entry. -/
structure PackageDependencyFrontmatter where
  name : Option String := none
  version : Option String := none
  install : Option String := none
deriving DecidableEq, Repr

/-- Parsed frontmatter of one environment-requirement entry. -/
structure EnvironmentFrontmatter where
  name : Option String := none
  required : Option Bool := none
  description : Option String := none
deriving DecidableEq, Repr

/-- Parsed `dependencies` frontmatter block (when it is a dict). -/
structure DependenciesFrontmatter where
  skills : List SkillDependencyFrontmatter := []
  packages : List PackageDependencyFrontmatter := []
  environment : List EnvironmentFrontmatter := []
deriving DecidableEq, Repr

/-- Parsed YAML frontmatter of one skill source, at the point where
`parse_skill` receives it from `parse_frontmatter`.  `dependencies = none`
covers both an absent block and a non-dict one (both yield empty lists in
the source). -/
structure Frontmatter where
  name : Option String := none
  description : Option String := none
  version : Option String := none
  tools : List ToolFrontmatter := []
  dependencies : Option DependenciesFrontmatter := none
deriving DecidableEq, Repr

/-- Embedding of `parse_tool(tool_data)`. -/
def parse_tool (t : ToolFrontmatter) : ToolDefinition :=
  { name := t.name.getD ""
    category := t.category.getD "cli"
    description := t.description.getD ""
    command := t.command.getD ""
    parameters := t.parameters.map (fun p =>
      { name := p.name.getD "", type := p.type.getD "string",
        required := p.required.getD false, default := p.default,
        description := p.description.getD "" })
    examples := t.examples.getD []
    aliases := t.aliases.getD [] }

/-- Embedding of `parse_skill` from the parsed frontmatter onwards: the
source returns `None` exactly when `frontmatter.get("name")` is falsy (the
key is absent or its value is the empty string); a missing `description`
merely defaults to the empty string. -/
def parse_skill (fm : Frontmatter) : Option SkillMeta :=
  if fm.name.getD "" = "" then none
  else
    some
      { name := fm.name.getD ""
        description := fm.description.getD ""
        version := fm.version.getD "1.0.0"
        tools := fm.tools.map parse_tool
        dependencies :=
          match fm.dependencies with
          | none => {}
          | some deps =>
            { skills := deps.skills.map (fun d =>
                { name := d.name.getD "", required := d.required.getD true,
                  reason := d.reason.getD "", auto_load := d.auto_load.getD false })
              packages := deps.packages.map (fun p =>
                { name := p.name.getD "", version := p.version.getD "",
                  install := p.install.getD "" })
              environment := deps.environment.map (fun e =>
                { name := e.name.getD "", required := e.required.getD true,
                  description := e.description.getD "" }) } }

/-- Loop body of `collect_all_skills`: `if meta: skills[meta.name] = meta`. -/
def collectStep (skills : Registry) (fm : Frontmatter) : Registry :=
  match parse_skill fm with
  | some meta => dictInsert skills meta.name meta
  | none => skills

/-- Embedding of `collect_all_skills()` from the discovered skill sources
onwards: each parsed source is inserted into the registry dict under its
name; a source `parse_skill` rejects contributes nothing. -/
def collect_all_skills (sources : List Frontmatter) : Registry :=
  sources.foldl collectStep []

/-- A skill record with only a name, a dependency list and a tool list set;
all remaining fields keep their dataclass defaults. -/
def mkSkill (name : String) (deps : List SkillDependency)
    (tools : List ToolDefinition := []) : SkillMeta :=
  { name := name, description := "", tools := tools,
    dependencies := { skills := deps } }

/-- Two-skill registry whose only required edge goes from `"A"` to `"B"`. -/
def chainReg : Registry :=
  [("A", mkSkill "A" [{ name := "B" }]), ("B", mkSkill "B" [])]

/-- The diamond of claim C6: `A` requires `B` and `C`; `B` and `C` each
require `D`. -/
def diamondReg : Registry :=
  [("A", mkSkill "A" [{ name := "B" }, { name := "C" }]),
   ("B", mkSkill "B" [{ name := "D" }]),
   ("C", mkSkill "C" [{ name := "D" }]),
   ("D", mkSkill "D" [])]

/-- One-skill registry in which the skill requires itself (claim C5). -/
def selfLoopReg (name : String) : Registry :=
  [(name, mkSkill name [{ name := name }])]

/-- Two-skill registry with a two-cycle of edges carrying
`required = false` and `auto_load = false` (claim C9: the cycle detector
follows edges regardless of the flags). -/
def optionalCycleReg (a b : String) : Registry :=
  [(a, mkSkill a [{ name := b, required := false, auto_load := false }]),
   (b, mkSkill b [{ name := a, required := false, auto_load := false }])]

/-- One placeholder tool per skill of the tool-aggregation examples. -/
def mkTool (name : String) (aliases : List String := []) : ToolDefinition :=
  { name := name, category := "cli", description := "", aliases := aliases }

/-- The tool-aggregation example of claim C7: `A` auto-loads `B` and `C`,
`B` auto-loads `C` (so `C` is reachable along two auto-load paths), and
`A` additionally has a required, non-auto-load edge to `X`. -/
def toolChainReg : Registry :=
  [("A", mkSkill "A"
      [{ name := "B", required := false, auto_load := true },
       { name := "X", required := true, auto_load := false },
       { name := "C", required := false, auto_load := true }]
      [mkTool "toolA"]),
   ("B", mkSkill "B" [{ name := "C", required := false, auto_load := true }] [mkTool "toolB"]),
   ("C", mkSkill "C" [] [mkTool "toolC"]),
   ("X", mkSkill "X" [] [mkTool "toolX"])]

/-- Two-skill registry whose auto-load edges form a cycle (claim C10). -/
def autoCycleReg : Registry :=
  [("A", mkSkill "A" [{ name := "B", required := true, auto_load := true }] [mkTool "toolA"]),
   ("B", mkSkill "B" [{ name := "A", required := true, auto_load := true }] [mkTool "toolB"])]

/-- Registry for claim C3's counterexample: one skill with one required
environment requirement named `"E"`. -/
def envReg : Registry :=
  [("S", { name := "S", description := "",
           dependencies := { environment := [{ name := "E", required := true }] } })]

/-- Environment for claim C3's counterexample: the variable `"E"` is
present but holds the empty string. -/
def emptyValuedEnviron : List (String × String) := [("E", "")]

/-- Frontmatter for claim C2's counterexample: a `name` is present but no
`description` is. -/
def noDescriptionSource : Frontmatter := { name := some "A" }

/-- State characterization of one resolver call: the `unresolved` set is
restored, the `resolved` set grows by exactly the names placed in the local
order, the local order has no duplicates, and every placed name was fresh
and present in the registry. -/
structure ResolveInv (skills : Registry) (st : RSt) (r : List String × List String × RSt) : Prop where
  unres : r.2.2.unresolved = st.unresolved
  res : r.2.2.resolved = st.resolved ∪ r.1.toFinset
  nodup : r.1.Nodup
  fresh : ∀ x ∈ r.1, x ∉ st.resolved ∧ x ∉ st.unresolved ∧ (dictGet x skills).isSome

/-- The set of keys of the registry dict. -/
def registryKeys (skills : Registry) : Finset String :=
  (skills.map (fun p => p.1)).toFinset

/-- Recursion measure of the resolver: the registry keys the traversal has
not yet touched.  Each expanding frame moves a fresh key into `unresolved`,
so the measure strictly decreases at every recursive call. -/
def mea (skills : Registry) (st : RSt) : Nat :=
  (registryKeys skills \ (st.resolved ∪ st.unresolved)).card

/-- The dependency edges the resolver follows: `x` depends on `y` through
an edge with `required = true` or `auto_load = true`. -/
def depEdge (skills : Registry) (x y : String) : Prop :=
  ∃ sk, dictGet x skills = some sk ∧ y ∈ reqAutoNames sk

/-- A set of names closed under registry-resident required/auto-load
dependencies. -/
def ClosedUnder (skills : Registry) (s : Finset String) : Prop :=
  ∀ x ∈ s, ∀ sk, dictGet x skills = some sk →
    ∀ y ∈ reqAutoNames sk, (dictGet y skills).isSome → y ∈ s

/-- Every name of the order list has all its registry-resident
required/auto-load dependencies either in `base` or earlier in the list. -/
def OrderOK (skills : Registry) (base : Finset String) (o : List String) : Prop :=
  ∀ p x s, o = p ++ x :: s → ∀ sk, dictGet x skills = some sk →
    ∀ y ∈ reqAutoNames sk, (dictGet y skills).isSome → y ∈ base ∨ y ∈ p

/-- The tools contributed by one registry name (the skill's `tools` list,
or nothing when the name is absent). -/
def toolsOf (skills : Registry) (x : String) : List ToolDefinition :=
  match dictGet x skills with
  | some sk => sk.tools
  | none => []

/-- State characterization of one `collect_tools` call: the memo set grows
by a duplicate-free list of fresh registry names and the collected tools
are exactly the concatenation of those names' tool lists in
visit-completion order. -/
def CollectInv (skills : Registry) (res : Finset String)
    (r : List ToolDefinition × Finset String) : Prop :=
  ∃ L : List String, r.2 = res ∪ L.toFinset ∧ L.Nodup ∧
    (∀ x ∈ L, x ∉ res ∧ (dictGet x skills).isSome) ∧
    r.1 = L.flatMap (fun x => toolsOf skills x)

/-- Recursion measure of the tool aggregator: the registry keys not yet
memoized. -/
def meaT (skills : Registry) (res : Finset String) : Nat :=
  (registryKeys skills \ res).card

/-- Whether a lookup key hits a tool: it equals the tool's name or is one
of its aliases (the keys `generate_tool_manifest` writes for that tool). -/
def matchesKey (k : String) (t : ToolDefinition) : Bool :=
  k == t.name || t.aliases.contains k

theorem depsFold_inv (skills : Registry)
    (rec : String → RSt → List String × List String × RSt)
    (H : ∀ d st, ResolveInv skills st (rec d st)) :
    ∀ ds st, ResolveInv skills st (depsFold rec ds st) := by
  intro ds
  induction ds with
  | nil =>
    intro st
    exact ⟨rfl, by simp [depsFold], by simp [depsFold], by simp [depsFold]⟩
  | cons d ds ih =>
    intro st
    have h1 := H d st
    have h2 := ih (rec d st).2.2
    refine ⟨?_, ?_, ?_, ?_⟩
    · show (depsFold rec (d :: ds) st).2.2.unresolved = st.unresolved
      simp only [depsFold]
      rw [h2.unres, h1.unres]
    · show (depsFold rec (d :: ds) st).2.2.resolved = _
      simp only [depsFold]
      rw [h2.res, h1.res, List.toFinset_append, Finset.union_assoc]
    · show ((rec d st).1 ++ (depsFold rec ds (rec d st).2.2).1).Nodup
      refine List.Nodup.append h1.nodup h2.nodup ?_
      intro x hx1 hx2
      exact (h2.fresh x hx2).1 (by rw [h1.res]; exact Finset.mem_union_right _ (List.mem_toFinset.2 hx1))
    · intro x hx
      rcases List.mem_append.1 hx with hx1 | hx2
      · exact h1.fresh x hx1
      · obtain ⟨hr, hu, hs⟩ := h2.fresh x hx2
        refine ⟨fun hc => hr ?_, ?_, hs⟩
        · rw [h1.res]; exact Finset.mem_union_left _ hc
        · rw [h1.unres] at hu; exact hu

theorem resolveFuel_inv (skills : Registry) :
    ∀ fuel skill_name st, ResolveInv skills st (resolveFuel skills fuel skill_name st) := by
  intro fuel
  induction fuel with
  | zero =>
    intro skill_name st
    exact ⟨rfl, by simp [resolveFuel], by simp [resolveFuel], by simp [resolveFuel]⟩
  | succ f ih =>
    intro skill_name st
    by_cases h1 : skill_name ∈ st.unresolved
    · refine ⟨?_, ?_, ?_, ?_⟩ <;> simp [resolveFuel, h1]
    · by_cases h2 : skill_name ∈ st.resolved
      · refine ⟨?_, ?_, ?_, ?_⟩ <;> simp [resolveFuel, h1, h2]
      · cases hsk : dictGet skill_name skills with
        | none =>
          refine ⟨?_, ?_, ?_, ?_⟩ <;> simp [resolveFuel, h1, h2, hsk]
        | some sk =>
          have hf := depsFold_inv skills (resolveFuel skills f) (fun d st' => ih d st')
            (reqAutoNames sk) ⟨st.resolved, insert skill_name st.unresolved⟩
          have hbody : resolveFuel skills (f + 1) skill_name st =
              ((depsFold (resolveFuel skills f) (reqAutoNames sk)
                  ⟨st.resolved, insert skill_name st.unresolved⟩).1 ++ [skill_name],
               (depsFold (resolveFuel skills f) (reqAutoNames sk)
                  ⟨st.resolved, insert skill_name st.unresolved⟩).2.1,
               ⟨insert skill_name (depsFold (resolveFuel skills f) (reqAutoNames sk)
                  ⟨st.resolved, insert skill_name st.unresolved⟩).2.2.resolved,
                (depsFold (resolveFuel skills f) (reqAutoNames sk)
                  ⟨st.resolved, insert skill_name st.unresolved⟩).2.2.unresolved.erase skill_name⟩) := by
            simp [resolveFuel, h1, h2, hsk]
          rw [hbody]
          refine ⟨?_, ?_, ?_, ?_⟩
          · show _ = st.unresolved
            rw [hf.unres]
            exact Finset.erase_insert h1
          · show insert skill_name _ = _
            rw [hf.res]
            ext x
            simp only [Finset.mem_insert, Finset.mem_union, List.mem_toFinset,
              List.mem_append, List.mem_singleton]
            tauto
          · refine List.Nodup.append hf.nodup (List.nodup_singleton _) ?_
            intro x hx1 hx2
            rw [List.mem_singleton] at hx2
            subst hx2
            exact (hf.fresh x hx1).2.1 (Finset.mem_insert_self _ _)
          · intro x hx
            rcases List.mem_append.1 hx with hx1 | hx2
            · obtain ⟨hr, hu, hs⟩ := hf.fresh x hx1
              exact ⟨hr, fun hc => hu (Finset.mem_insert_of_mem hc), hs⟩
            · rw [List.mem_singleton] at hx2
              subst hx2
              exact ⟨h2, h1, by rw [hsk]; rfl⟩

theorem dictGet_isSome_mem_keys {α : Type} {l : List (String × α)} {x : String}
    (h : (dictGet x l).isSome) : x ∈ (l.map (fun p => p.1)).toFinset := by
  induction l with
  | nil => simp [dictGet] at h
  | cons p rest ih =>
    rw [dictGet] at h
    by_cases hx : x = p.1
    · simp [hx]
    · rw [if_neg hx] at h
      simp only [List.map_cons, List.toFinset_cons, Finset.mem_insert]
      exact Or.inr (ih h)

theorem mea_init_le (skills : Registry) : mea skills ⟨∅, ∅⟩ ≤ skills.length := by
  have h : mea skills ⟨∅, ∅⟩ = (registryKeys skills).card := by
    simp [mea]
  rw [h]
  unfold registryKeys
  calc (skills.map (fun p => p.1)).toFinset.card ≤ (skills.map (fun p => p.1)).length :=
        List.toFinset_card_le (skills.map (fun p => p.1))
    _ = skills.length := by simp

theorem mea_push (skills : Registry) {skill_name : String} {st : RSt} {sk : SkillMeta}
    (hsk : dictGet skill_name skills = some sk)
    (hr : skill_name ∉ st.resolved) (hu : skill_name ∉ st.unresolved) :
    mea skills ⟨st.resolved, insert skill_name st.unresolved⟩ + 1 = mea skills st := by
  have hmem : skill_name ∈ registryKeys skills \ (st.resolved ∪ st.unresolved) := by
    refine Finset.mem_sdiff.2 ⟨dictGet_isSome_mem_keys (by rw [hsk]; rfl), ?_⟩
    simp [hr, hu]
  have h2 : 1 ≤ (registryKeys skills \ (st.resolved ∪ st.unresolved)).card :=
    Finset.card_pos.2 ⟨skill_name, hmem⟩
  have hstep : registryKeys skills \ (st.resolved ∪ insert skill_name st.unresolved)
      = (registryKeys skills \ (st.resolved ∪ st.unresolved)).erase skill_name := by
    rw [Finset.union_insert, Finset.sdiff_insert]
  show (registryKeys skills \ (st.resolved ∪ insert skill_name st.unresolved)).card + 1
      = (registryKeys skills \ (st.resolved ∪ st.unresolved)).card
  rw [hstep, Finset.card_erase_of_mem hmem]
  omega

theorem mea_mono (skills : Registry) {st : RSt} {r : List String × List String × RSt}
    (h : ResolveInv skills st r) : mea skills r.2.2 ≤ mea skills st := by
  apply Finset.card_le_card
  apply Finset.sdiff_subset_sdiff (Finset.Subset.refl _)
  rw [h.res, h.unres]
  exact Finset.union_subset_union Finset.subset_union_left (Finset.Subset.refl _)

theorem depsFold_ext (skills : Registry)
    (rec₁ rec₂ : String → RSt → List String × List String × RSt) (M : Nat)
    (Hinv : ∀ d st, ResolveInv skills st (rec₁ d st))
    (H : ∀ d st, mea skills st ≤ M → rec₁ d st = rec₂ d st) :
    ∀ ds st, mea skills st ≤ M → depsFold rec₁ ds st = depsFold rec₂ ds st := by
  intro ds
  induction ds with
  | nil => intro st _; rfl
  | cons d ds ih =>
    intro st hst
    have e1 := H d st hst
    have e2 := ih (rec₁ d st).2.2 (le_trans (mea_mono skills (Hinv d st)) hst)
    simp only [depsFold, ← e1, e2]

/-- Fuel stabilization for the resolver: any two fuel values above the
measure bound compute the same result, so the recursion terminates. -/
theorem resolveFuel_stab (skills : Registry) :
    ∀ f₁ f₂ skill_name st, mea skills st + 1 ≤ f₁ → mea skills st + 1 ≤ f₂ →
      resolveFuel skills f₁ skill_name st = resolveFuel skills f₂ skill_name st := by
  intro f₁
  induction f₁ with
  | zero => intro f₂ n st h1 _; exact absurd h1 (by omega)
  | succ a ih =>
    intro f₂ n st h1 h2
    obtain ⟨b, rfl⟩ : ∃ b, f₂ = b + 1 := ⟨f₂ - 1, by omega⟩
    by_cases hu : n ∈ st.unresolved
    · simp [resolveFuel, hu]
    · by_cases hr : n ∈ st.resolved
      · simp [resolveFuel, hu, hr]
      · cases hsk : dictGet n skills with
        | none => simp [resolveFuel, hu, hr, hsk]
        | some sk =>
          have hmea := mea_push skills hsk hr hu
          have hfold : depsFold (resolveFuel skills a) (reqAutoNames sk)
                ⟨st.resolved, insert n st.unresolved⟩
              = depsFold (resolveFuel skills b) (reqAutoNames sk)
                ⟨st.resolved, insert n st.unresolved⟩ := by
            refine depsFold_ext skills _ _
              (mea skills ⟨st.resolved, insert n st.unresolved⟩)
              (fun d st' => resolveFuel_inv skills a d st')
              (fun d st' h' => ih b d st' (by omega) (by omega)) _ _ (le_refl _)
          simp [resolveFuel, hu, hr, hsk, hfold]

/-- C5: `resolve_skill_dependencies` terminates on every finite registry,
cyclic ones included — any fuel at least `|registry| + 1` computes the same
result as the bound itself — and on the one-skill registry whose skill
requires itself it returns the skill in the order together with the
circular-dependency message. -/
theorem resolve_terminates_on_cycles_c5 (skills : Registry) (skill_name : String)
    (fuel : Nat) (h : skills.length + 1 ≤ fuel) :
    resolveFuel skills fuel skill_name ⟨∅, ∅⟩
      = resolveFuel skills (skills.length + 1) skill_name ⟨∅, ∅⟩ ∧
    resolve_skill_dependencies (selfLoopReg skill_name) skill_name
      = ([skill_name], ["Circular dependency detected: " ++ skill_name]) := by
  constructor
  · have hinit := mea_init_le skills
    exact resolveFuel_stab skills fuel (skills.length + 1) skill_name ⟨∅, ∅⟩
      (by omega) (by omega)
  · simp [resolve_skill_dependencies, selfLoopReg, mkSkill, resolveFuel, depsFold,
      reqAutoNames, dictGet]

/-- Witness for C5 at the concrete one-skill self-loop registry. -/
theorem resolve_terminates_on_cycles_c5_witness :
    resolveFuel (selfLoopReg "A") 5 "A" ⟨∅, ∅⟩
      = resolveFuel (selfLoopReg "A") ((selfLoopReg "A").length + 1) "A" ⟨∅, ∅⟩ ∧
    resolve_skill_dependencies (selfLoopReg "A") "A"
      = (["A"], ["Circular dependency detected: " ++ "A"]) :=
  resolve_terminates_on_cycles_c5 (selfLoopReg "A") "A" 5 (by decide)

theorem orderOK_nil (skills : Registry) (base : Finset String) : OrderOK skills base [] := by
  intro p x s h
  exact absurd h (by simp)

theorem orderOK_append (skills : Registry) (base : Finset String) {o1 o2 : List String}
    (h1 : OrderOK skills base o1) (h2 : OrderOK skills (base ∪ o1.toFinset) o2) :
    OrderOK skills base (o1 ++ o2) := by
  intro p x s hdec sk hx y hy hS
  rcases List.append_eq_append_iff.1 hdec with ⟨t, hp, ht⟩ | ⟨t, ho1, ht⟩
  · rcases h2 t x s ht sk hx y hy hS with hyb | hyt
    · rcases Finset.mem_union.1 hyb with hyb' | hyo1
      · exact Or.inl hyb'
      · exact Or.inr (hp ▸ List.mem_append_left t (List.mem_toFinset.1 hyo1))
    · exact Or.inr (hp ▸ List.mem_append_right o1 hyt)
  · cases t with
    | nil =>
      rcases h2 [] x s ht.symm sk hx y hy hS with hyb | hyt
      · rcases Finset.mem_union.1 hyb with hyb' | hyo1
        · exact Or.inl hyb'
        · rw [List.append_nil] at ho1
          exact Or.inr (ho1 ▸ List.mem_toFinset.1 hyo1)
      · exact absurd hyt (List.not_mem_nil y)
    | cons x' t' =>
      obtain ⟨hx', hs⟩ : x = x' ∧ s = t' ++ o2 := by
        have := List.cons.injEq x s x' (t' ++ o2) ▸ ht
        exact ⟨this.1, this.2⟩
      subst hx'
      exact h1 p x t' ho1 sk hx y hy hS

theorem orderOK_singleton (skills : Registry) (base : Finset String) (x0 : String)
    (h : ∀ sk, dictGet x0 skills = some sk →
      ∀ y ∈ reqAutoNames sk, (dictGet y skills).isSome → y ∈ base) :
    OrderOK skills base [x0] := by
  intro p x s hdec sk hx y hy hS
  obtain ⟨hp, hx0, hs⟩ : p = [] ∧ x = x0 ∧ s = [] := by
    cases p with
    | nil =>
      simp only [List.nil_append] at hdec
      exact ⟨rfl, (List.cons.injEq x0 [] x s ▸ hdec).1.symm,
        ((List.cons.injEq x0 [] x s ▸ hdec).2).symm⟩
    | cons a p' =>
      exfalso
      have := (List.cons.injEq x0 [] a (p' ++ x :: s) ▸ hdec).2
      exact absurd this.symm (by simp)
  subst hx0
  exact Or.inl (h sk hx y hy hS)

theorem depsFold_ord (skills : Registry) (M : Nat)
    (rec : String → RSt → List String × List String × RSt)
    (Hinv : ∀ d st, ResolveInv skills st (rec d st))
    (Hrec : ∀ d st, mea skills st ≤ M →
        (∀ y ∈ st.unresolved, Relation.TransGen (depEdge skills) y d) →
        ClosedUnder skills st.resolved →
        ClosedUnder skills (rec d st).2.2.resolved ∧
        ((dictGet d skills).isSome → d ∈ (rec d st).2.2.resolved) ∧
        OrderOK skills st.resolved (rec d st).1) :
    ∀ ds st, mea skills st ≤ M →
      (∀ d ∈ ds, ∀ y ∈ st.unresolved, Relation.TransGen (depEdge skills) y d) →
      ClosedUnder skills st.resolved →
      ClosedUnder skills (depsFold rec ds st).2.2.resolved ∧
      (∀ d ∈ ds, (dictGet d skills).isSome → d ∈ (depsFold rec ds st).2.2.resolved) ∧
      OrderOK skills st.resolved (depsFold rec ds st).1 := by
  intro ds
  induction ds with
  | nil =>
    intro st _ _ hCl
    refine ⟨hCl, ?_, orderOK_nil skills st.resolved⟩
    intro d hd
    exact absurd hd (List.not_mem_nil d)
  | cons d ds ih =>
    intro st hm hINV hCl
    have hinv1 := Hinv d st
    have hinvf := depsFold_inv skills rec Hinv ds (rec d st).2.2
    have h1 := Hrec d st hm (hINV d (List.mem_cons_self d ds)) hCl
    have hm' : mea skills (rec d st).2.2 ≤ M := le_trans (mea_mono skills hinv1) hm
    have hINV' : ∀ d' ∈ ds, ∀ y ∈ (rec d st).2.2.unresolved,
        Relation.TransGen (depEdge skills) y d' := by
      intro d' hd' y hy
      rw [hinv1.unres] at hy
      exact hINV d' (List.mem_cons_of_mem d hd') y hy
    have h2 := ih (rec d st).2.2 hm' hINV' h1.1
    refine ⟨?_, ?_, ?_⟩
    · show ClosedUnder skills (depsFold rec ds (rec d st).2.2).2.2.resolved
      exact h2.1
    · show ∀ d' ∈ d :: ds, (dictGet d' skills).isSome = true →
          d' ∈ (depsFold rec ds (rec d st).2.2).2.2.resolved
      intro d' hd'
      rcases List.mem_cons.1 hd' with heq | hd''
      · intro hS
        rw [heq, hinvf.res]
        exact Finset.mem_union_left _ (h1.2.1 (heq ▸ hS))
      · exact h2.2.1 d' hd''
    · show OrderOK skills st.resolved ((rec d st).1 ++ (depsFold rec ds (rec d st).2.2).1)
      refine orderOK_append skills st.resolved h1.2.2 ?_
      have : st.resolved ∪ (rec d st).1.toFinset = (rec d st).2.2.resolved := hinv1.res.symm
      rw [this]
      exact h2.2.2

theorem resolveFuel_ord (skills : Registry)
    (hacyc : ∀ x, ¬ Relation.TransGen (depEdge skills) x x) :
    ∀ fuel skill_name st, mea skills st + 1 ≤ fuel →
      (∀ y ∈ st.unresolved, Relation.TransGen (depEdge skills) y skill_name) →
      ClosedUnder skills st.resolved →
      ClosedUnder skills (resolveFuel skills fuel skill_name st).2.2.resolved ∧
      ((dictGet skill_name skills).isSome →
        skill_name ∈ (resolveFuel skills fuel skill_name st).2.2.resolved) ∧
      OrderOK skills st.resolved (resolveFuel skills fuel skill_name st).1 := by
  intro fuel
  induction fuel with
  | zero => intro n st h _ _; exact absurd h (by omega)
  | succ f ih =>
    intro n st hfuel hINV hCl
    by_cases hu : n ∈ st.unresolved
    · exact (hacyc n (hINV n hu)).elim
    · by_cases hr : n ∈ st.resolved
      · have hbody : resolveFuel skills (f + 1) n st = ([], [], st) := by
          simp [resolveFuel, hu, hr]
        rw [hbody]
        exact ⟨hCl, fun _ => hr, orderOK_nil skills st.resolved⟩
      · cases hsk : dictGet n skills with
        | none =>
          have hbody : resolveFuel skills (f + 1) n st
              = ([], ["Skill not found: " ++ n], st) := by
            simp [resolveFuel, hu, hr, hsk]
          rw [hbody]
          refine ⟨hCl, ?_, orderOK_nil skills st.resolved⟩
          intro hS
          exact absurd hS (by simp)
        | some sk =>
          have hmea := mea_push skills hsk hr hu
          have hfoldinv := depsFold_inv skills (resolveFuel skills f)
            (fun d st' => resolveFuel_inv skills f d st') (reqAutoNames sk)
            ⟨st.resolved, insert n st.unresolved⟩
          have hINV' : ∀ d ∈ reqAutoNames sk,
              ∀ y ∈ (⟨st.resolved, insert n st.unresolved⟩ : RSt).unresolved,
                Relation.TransGen (depEdge skills) y d := by
            intro d hd y hy
            have hedge : depEdge skills n d := ⟨sk, hsk, hd⟩
            rcases Finset.mem_insert.1 hy with rfl | hy'
            · exact Relation.TransGen.single hedge
            · exact Relation.TransGen.tail (hINV y hy') hedge
          have hfold := depsFold_ord skills
            (mea skills ⟨st.resolved, insert n st.unresolved⟩) (resolveFuel skills f)
            (fun d st' => resolveFuel_inv skills f d st')
            (fun d st' hm hI hC => ih d st' (by omega) hI hC)
            (reqAutoNames sk) ⟨st.resolved, insert n st.unresolved⟩ (le_refl _) hINV' hCl
          have hbody : resolveFuel skills (f + 1) n st
              = ((depsFold (resolveFuel skills f) (reqAutoNames sk)
                    ⟨st.resolved, insert n st.unresolved⟩).1 ++ [n],
                 (depsFold (resolveFuel skills f) (reqAutoNames sk)
                    ⟨st.resolved, insert n st.unresolved⟩).2.1,
                 ⟨insert n (depsFold (resolveFuel skills f) (reqAutoNames sk)
                    ⟨st.resolved, insert n st.unresolved⟩).2.2.resolved,
                  (depsFold (resolveFuel skills f) (reqAutoNames sk)
                    ⟨st.resolved, insert n st.unresolved⟩).2.2.unresolved.erase n⟩) := by
            simp [resolveFuel, hu, hr, hsk]
          rw [hbody]
          refine ⟨?_, fun _ => Finset.mem_insert_self n _, ?_⟩
          · intro x hx sk' hx' y hy hS
            rcases Finset.mem_insert.1 hx with rfl | hx''
            · have hsk' : sk' = sk := by
                rw [hsk] at hx'
                exact (Option.some.injEq sk' sk ▸ hx'.symm)
              subst hsk'
              exact Finset.mem_insert_of_mem (hfold.2.1 y hy hS)
            · exact Finset.mem_insert_of_mem (hfold.1 x hx'' sk' hx' y hy hS)
          · refine orderOK_append skills st.resolved hfold.2.2 ?_
            refine orderOK_singleton skills _ n ?_
            intro sk' hx' y hy hS
            have hsk' : sk' = sk := by
              rw [hsk] at hx'
              exact (Option.some.injEq sk' sk ▸ hx'.symm)
            subst hsk'
            have hres := hfold.2.1 y hy hS
            rw [hfoldinv.res] at hres
            exact hres

/-- C1: over any registry whose required/auto-load dependency sub-graph is
acyclic, the order computed by `resolve_skill_dependencies` places every
skill strictly after each of its required or auto-load dependencies — an
edge from the entry at position `i` to the entry at position `j` forces
`j < i`, so no skill appears before a skill it depends on. -/
theorem resolve_order_topological_c1 (skills : Registry)
    (hacyc : ∀ x, ¬ Relation.TransGen (depEdge skills) x x)
    (skill_name : String) (i j : Nat)
    (hi : i < (resolve_skill_dependencies skills skill_name).1.length)
    (hj : j < (resolve_skill_dependencies skills skill_name).1.length)
    (hE : depEdge skills ((resolve_skill_dependencies skills skill_name).1.get ⟨i, hi⟩)
      ((resolve_skill_dependencies skills skill_name).1.get ⟨j, hj⟩)) :
    j < i := by
  have hinit : mea skills ⟨∅, ∅⟩ + 1 ≤ skills.length + 1 := by
    have := mea_init_le skills
    omega
  have hinv := resolveFuel_inv skills (skills.length + 1) skill_name ⟨∅, ∅⟩
  have hord := resolveFuel_ord skills hacyc (skills.length + 1) skill_name ⟨∅, ∅⟩ hinit
    (fun y hy => absurd hy (Finset.not_mem_empty y))
    (fun x hx => absurd hx (Finset.not_mem_empty x))
  have hnodup : (resolve_skill_dependencies skills skill_name).1.Nodup := hinv.nodup
  have hfresh : ∀ x ∈ (resolve_skill_dependencies skills skill_name).1,
      x ∉ (∅ : Finset String) ∧ x ∉ (∅ : Finset String) ∧ (dictGet x skills).isSome :=
    hinv.fresh
  have hOK : OrderOK skills ∅ (resolve_skill_dependencies skills skill_name).1 :=
    hord.2.2
  set o := (resolve_skill_dependencies skills skill_name).1 with hodef
  obtain ⟨sk, hgx, hgy⟩ := hE
  have hsplit : o = o.take i ++ o.get ⟨i, hi⟩ :: o.drop (i + 1) := by
    have hdrop : o.drop i = o.get ⟨i, hi⟩ :: o.drop (i + 1) := by
      rw [List.drop_eq_getElem_cons hi]
      simp
    rw [← hdrop, List.take_append_drop]
  have hyS : (dictGet (o.get ⟨j, hj⟩) skills).isSome =  true :=
    (hfresh (o.get ⟨j, hj⟩) (List.get_mem o j hj)).2.2
  have hmem := hOK (o.take i) (o.get ⟨i, hi⟩) (o.drop (i + 1)) hsplit sk hgx
    (o.get ⟨j, hj⟩) hgy hyS
  rcases hmem with hmem' | hmem'
  · exact absurd hmem' (Finset.not_mem_empty _)
  · obtain ⟨⟨k, hk⟩, hkeq⟩ := List.mem_iff_get.1 hmem'
    have hk' : k < o.length := by
      have := hk
      rw [List.length_take] at this
      exact lt_of_lt_of_le this (min_le_right i o.length)
    have hki : k < i := by
      have := hk
      rw [List.length_take] at this
      exact lt_of_lt_of_le this (min_le_left i o.length)
    have hkeq' : o.get ⟨k, hk'⟩ = o.get ⟨j, hj⟩ := by
      rw [← hkeq]
      simp [List.get_eq_getElem, List.getElem_take]
    have := (hnodup.get_inj_iff).1 hkeq'
    have hkj : k = j := by
      exact Fin.mk.injEq k hk' j hj ▸ this
    omega

theorem toolsFold_inv (skills : Registry)
    (rec : String → Finset String → List ToolDefinition × Finset String)
    (H : ∀ d res, CollectInv skills res (rec d res)) :
    ∀ ds res, CollectInv skills res (toolsFold rec ds res) := by
  intro ds
  induction ds with
  | nil =>
    intro res
    exact ⟨[], by simp [toolsFold], by simp, by simp, by simp [toolsFold]⟩
  | cons d ds ih =>
    intro res
    obtain ⟨L1, h1r, h1n, h1f, h1t⟩ := H d res
    obtain ⟨L2, h2r, h2n, h2f, h2t⟩ := ih (rec d res).2
    refine ⟨L1 ++ L2, ?_, ?_, ?_, ?_⟩
    · show (toolsFold rec ds (rec d res).2).2 = _
      rw [h2r, h1r, List.toFinset_append, Finset.union_assoc]
    · refine List.Nodup.append h1n h2n ?_
      intro x hx1 hx2
      exact (h2f x hx2).1 (by rw [h1r]; exact Finset.mem_union_right _ (List.mem_toFinset.2 hx1))
    · intro x hx
      rcases List.mem_append.1 hx with hx1 | hx2
      · exact h1f x hx1
      · obtain ⟨hxr, hxs⟩ := h2f x hx2
        refine ⟨fun hc => hxr ?_, hxs⟩
        rw [h1r]
        exact Finset.mem_union_left _ hc
    · show (rec d res).1 ++ (toolsFold rec ds (rec d res).2).1 = _
      rw [h1t, h2t, List.flatMap_append]

theorem collectTools_inv (skills : Registry) :
    ∀ fuel skill_name res, CollectInv skills res (collectToolsFuel skills fuel skill_name res) := by
  intro fuel
  induction fuel with
  | zero =>
    intro skill_name res
    exact ⟨[], by simp [collectToolsFuel], by simp, by simp, by simp [collectToolsFuel]⟩
  | succ f ih =>
    intro skill_name res
    by_cases hm : skill_name ∈ res
    · exact ⟨[], by simp [collectToolsFuel, hm], by simp, by simp, by simp [collectToolsFuel, hm]⟩
    · cases hsk : dictGet skill_name skills with
      | none =>
        exact ⟨[], by simp [collectToolsFuel, hm, hsk], by simp, by simp,
          by simp [collectToolsFuel, hm, hsk]⟩
      | some sk =>
        obtain ⟨L, hr, hn, hf, ht⟩ := toolsFold_inv skills (collectToolsFuel skills f)
          (fun d res' => ih d res') (autoNames sk) (insert skill_name res)
        have hbody : collectToolsFuel skills (f + 1) skill_name res
            = ((toolsFold (collectToolsFuel skills f) (autoNames sk) (insert skill_name res)).1
                ++ sk.tools,
               (toolsFold (collectToolsFuel skills f) (autoNames sk) (insert skill_name res)).2) := by
          simp [collectToolsFuel, hm, hsk]
        rw [hbody]
        refine ⟨L ++ [skill_name], ?_, ?_, ?_, ?_⟩
        · show _ = res ∪ (L ++ [skill_name]).toFinset
          rw [hr]
          ext x
          simp only [Finset.mem_union, Finset.mem_insert, List.mem_toFinset, List.mem_append,
            List.mem_singleton]
          tauto
        · refine List.Nodup.append hn (List.nodup_singleton _) ?_
          intro x hx1 hx2
          rw [List.mem_singleton] at hx2
          subst hx2
          exact (hf x hx1).1 (Finset.mem_insert_self _ _)
        · intro x hx
          rcases List.mem_append.1 hx with hx1 | hx2
          · obtain ⟨hxr, hxs⟩ := hf x hx1
            exact ⟨fun hc => hxr (Finset.mem_insert_of_mem hc), hxs⟩
          · rw [List.mem_singleton] at hx2
            subst hx2
            exact ⟨hm, by rw [hsk]; rfl⟩
        · show _ ++ sk.tools = _
          rw [ht, List.flatMap_append]
          have : toolsOf skills skill_name = sk.tools := by
            unfold toolsOf
            rw [hsk]
          simp [this]

theorem meaT_init_le (skills : Registry) : meaT skills ∅ ≤ skills.length := by
  have h : meaT skills ∅ = (registryKeys skills).card := by
    simp [meaT]
  rw [h]
  unfold registryKeys
  calc (skills.map (fun p => p.1)).toFinset.card ≤ (skills.map (fun p => p.1)).length :=
        List.toFinset_card_le (skills.map (fun p => p.1))
    _ = skills.length := by simp

theorem meaT_push (skills : Registry) {skill_name : String} {res : Finset String}
    {sk : SkillMeta} (hsk : dictGet skill_name skills = some sk)
    (hm : skill_name ∉ res) :
    meaT skills (insert skill_name res) + 1 = meaT skills res := by
  have hmem : skill_name ∈ registryKeys skills \ res :=
    Finset.mem_sdiff.2 ⟨dictGet_isSome_mem_keys (by rw [hsk]; rfl), hm⟩
  have h2 : 1 ≤ (registryKeys skills \ res).card := Finset.card_pos.2 ⟨skill_name, hmem⟩
  show (registryKeys skills \ insert skill_name res).card + 1 = (registryKeys skills \ res).card
  rw [Finset.sdiff_insert, Finset.card_erase_of_mem hmem]
  omega

theorem meaT_mono (skills : Registry) {res : Finset String}
    {r : List ToolDefinition × Finset String} (h : CollectInv skills res r) :
    meaT skills r.2 ≤ meaT skills res := by
  obtain ⟨L, hr, -, -, -⟩ := h
  apply Finset.card_le_card
  apply Finset.sdiff_subset_sdiff (Finset.Subset.refl _)
  rw [hr]
  exact Finset.subset_union_left

theorem toolsFold_ext (skills : Registry)
    (rec₁ rec₂ : String → Finset String → List ToolDefinition × Finset String) (M : Nat)
    (Hinv : ∀ d res, CollectInv skills res (rec₁ d res))
    (H : ∀ d res, meaT skills res ≤ M → rec₁ d res = rec₂ d res) :
    ∀ ds res, meaT skills res ≤ M → toolsFold rec₁ ds res = toolsFold rec₂ ds res := by
  intro ds
  induction ds with
  | nil => intro res _; rfl
  | cons d ds ih =>
    intro res hres
    have e1 := H d res hres
    have e2 := ih (rec₁ d res).2 (le_trans (meaT_mono skills (Hinv d res)) hres)
    simp only [toolsFold, ← e1, e2]

/-- Fuel stabilization for the tool aggregator: any two fuel values above
the measure bound compute the same result, so the memoized walk terminates
even on cyclic auto-load graphs. -/
theorem collectTools_stab (skills : Registry) :
    ∀ f₁ f₂ skill_name res, meaT skills res + 1 ≤ f₁ → meaT skills res + 1 ≤ f₂ →
      collectToolsFuel skills f₁ skill_name res = collectToolsFuel skills f₂ skill_name res := by
  intro f₁
  induction f₁ with
  | zero => intro f₂ n res h1 _; exact absurd h1 (by omega)
  | succ a ih =>
    intro f₂ n res h1 h2
    obtain ⟨b, rfl⟩ : ∃ b, f₂ = b + 1 := ⟨f₂ - 1, by omega⟩
    by_cases hm : n ∈ res
    · simp [collectToolsFuel, hm]
    · cases hsk : dictGet n skills with
      | none => simp [collectToolsFuel, hm, hsk]
      | some sk =>
        have hmea := meaT_push skills hsk hm
        have hfold : toolsFold (collectToolsFuel skills a) (autoNames sk) (insert n res)
            = toolsFold (collectToolsFuel skills b) (autoNames sk) (insert n res) := by
          refine toolsFold_ext skills _ _ (meaT skills (insert n res))
            (fun d res' => collectTools_inv skills a d res')
            (fun d res' h' => ih b d res' (by omega) (by omega)) _ _ (le_refl _)
        simp [collectToolsFuel, hm, hsk, hfold]

/-- C10: `get_tools_for_skill` terminates on every finite registry, even
when the auto-load edges form a cycle — any fuel at least `|registry| + 1`
computes the same result as the bound itself, because the memo set admits
each skill at most once — and on the two-skill auto-load cycle it returns
both skills' tools. -/
theorem tools_terminate_on_cycles_c10 (skills : Registry) (skill_name : String)
    (fuel : Nat) (h : skills.length + 1 ≤ fuel) :
    collectToolsFuel skills fuel skill_name ∅
      = collectToolsFuel skills (skills.length + 1) skill_name ∅ ∧
    get_tools_for_skill autoCycleReg "A" = [mkTool "toolB", mkTool "toolA"] := by
  constructor
  · have hinit := meaT_init_le skills
    exact collectTools_stab skills fuel (skills.length + 1) skill_name ∅ (by omega) (by omega)
  · decide

/-- Witness for C10 at the concrete two-skill auto-load cycle. -/
theorem tools_terminate_on_cycles_c10_witness :
    collectToolsFuel autoCycleReg 7 "A" ∅
      = collectToolsFuel autoCycleReg (autoCycleReg.length + 1) "A" ∅ ∧
    get_tools_for_skill autoCycleReg "A" = [mkTool "toolB", mkTool "toolA"] :=
  tools_terminate_on_cycles_c10 autoCycleReg "A" 7 (by decide)

/-- C7: the tools aggregated for any skill are the concatenation of the
tool lists of a duplicate-free list of registry names (each reachable
skill contributes its tools exactly once), and on the concrete example
registry — `A` auto-loads `B` and `C`, `B` auto-loads `C`, and `A` merely
requires `X` without auto-load — the walk follows only auto-load edges in
declaration order, recursing before appending: the result is `C`'s tools,
then `B`'s, then `A`'s, each exactly once and without `X`'s. -/
theorem tools_postorder_auto_only_c7 (skills : Registry) (skill_name : String) :
    (∃ L : List String, L.Nodup ∧ (∀ x ∈ L, (dictGet x skills).isSome) ∧
      get_tools_for_skill skills skill_name = L.flatMap (fun x => toolsOf skills x)) ∧
    get_tools_for_skill toolChainReg "A" = [mkTool "toolC", mkTool "toolB", mkTool "toolA"] ∧
    (get_tools_for_skill toolChainReg "A").count (mkTool "toolC") = 1 ∧
    mkTool "toolX" ∉ get_tools_for_skill toolChainReg "A" := by
  refine ⟨?_, by decide, by decide, by decide⟩
  obtain ⟨L, hr, hn, hf, ht⟩ :=
    collectTools_inv skills (skills.length + 1) skill_name ∅
  exact ⟨L, hn, fun x hx => (hf x hx).2, ht⟩

theorem chainReg_edge {x y : String} (h : depEdge chainReg x y) : x = "A" ∧ y = "B" := by
  obtain ⟨sk, hx, hy⟩ := h
  by_cases hA : x = "A"
  · subst hA
    have hsk : sk = mkSkill "A" [{ name := "B" }] := by
      simp [chainReg, dictGet] at hx
      exact hx.symm
    subst hsk
    simp [reqAutoNames, mkSkill] at hy
    exact ⟨rfl, hy⟩
  · by_cases hB : x = "B"
    · subst hB
      have hsk : sk = mkSkill "B" [] := by
        simp [chainReg, dictGet] at hx
        exact hx.symm
      subst hsk
      simp [reqAutoNames, mkSkill] at hy
    · exfalso
      have hnone : dictGet x chainReg = none := by
        simp [chainReg, dictGet, hA, hB]
      rw [hnone] at hx
      exact absurd hx (by simp)

theorem chainReg_acyclic : ∀ x, ¬ Relation.TransGen (depEdge chainReg) x x := by
  have hstep : ∀ x y, Relation.TransGen (depEdge chainReg) x y → x = "A" ∧ y = "B" := by
    intro x y h
    induction h with
    | single h' => exact chainReg_edge h'
    | tail _ h' ih =>
      have h2 := chainReg_edge h'
      rw [ih.2] at h2
      exact absurd h2.1 (by decide)
  intro x h
  have hx := hstep x x h
  rw [hx.1] at hx
  exact absurd hx.2 (by decide)

/-- Witness for C1 at the concrete two-skill chain registry: `"A"` requires
`"B"`, the computed order is `["B", "A"]`, and the edge from position 1 to
position 0 indeed satisfies `0 < 1`. -/
theorem resolve_order_topological_c1_witness :
    depEdge chainReg ((resolve_skill_dependencies chainReg "A").1.get ⟨1, by decide⟩)
      ((resolve_skill_dependencies chainReg "A").1.get ⟨0, by decide⟩) ∧ (0 : Nat) < 1 :=
  ⟨⟨mkSkill "A" [{ name := "B" }], by decide, by decide⟩,
    resolve_order_topological_c1 chainReg chainReg_acyclic "A" 1 0 (by decide) (by decide)
      ⟨mkSkill "A" [{ name := "B" }], by decide, by decide⟩⟩

/-- C4: a required dependency edge to a name absent from the registry
yields the `Skill not found` message while the dependent skill itself is
still placed in the order: whenever the registry maps `a` to a skill whose
required/auto-load dependency list is exactly the absent name `c`, the
resolver returns `([a], ["Skill not found: c"])`. -/
theorem resolve_dangling_c4 (skills : Registry) (a c : String) (sk : SkillMeta)
    (ha : dictGet a skills = some sk) (hdeps : reqAutoNames sk = [c])
    (hc : dictGet c skills = none) :
    resolve_skill_dependencies skills a = ([a], ["Skill not found: " ++ c]) := by
  have hca : c ≠ a := by
    intro h
    rw [← h, hc] at ha
    exact absurd ha (by simp)
  obtain ⟨m, hm⟩ : ∃ m, skills.length = m + 1 := by
    cases skills with
    | nil => simp [dictGet] at ha
    | cons p rest => exact ⟨rest.length, rfl⟩
  unfold resolve_skill_dependencies
  rw [hm]
  simp [resolveFuel, ha, hdeps, hc, depsFold, hca]

/-- Witness for C4 at the concrete one-skill registry whose only skill
requires the absent name `"C"`. -/
theorem resolve_dangling_c4_witness :
    resolve_skill_dependencies [("A", mkSkill "A" [{ name := "C" }])] "A"
      = (["A"], ["Skill not found: " ++ "C"]) :=
  resolve_dangling_c4 [("A", mkSkill "A" [{ name := "C" }])] "A" "C"
    (mkSkill "A" [{ name := "C" }]) (by decide) (by decide) (by decide)

/-- C6: on the diamond registry (`A` requires `B` and `C`; `B` and `C` each
require `D`) the resolver returns the order `["D", "B", "C", "A"]` with no
missing entries: `D` appears exactly once, before both `B` and `C`, and
`B` and `C` both appear before `A`. -/
theorem resolve_diamond_c6 :
    resolve_skill_dependencies diamondReg "A" = (["D", "B", "C", "A"], []) ∧
    (resolve_skill_dependencies diamondReg "A").1.count "D" = 1 ∧
    (resolve_skill_dependencies diamondReg "A").1.indexOf "D"
      < (resolve_skill_dependencies diamondReg "A").1.indexOf "B" ∧
    (resolve_skill_dependencies diamondReg "A").1.indexOf "D"
      < (resolve_skill_dependencies diamondReg "A").1.indexOf "C" ∧
    (resolve_skill_dependencies diamondReg "A").1.indexOf "B"
      < (resolve_skill_dependencies diamondReg "A").1.indexOf "A" ∧
    (resolve_skill_dependencies diamondReg "A").1.indexOf "C"
      < (resolve_skill_dependencies diamondReg "A").1.indexOf "A" :=
  ⟨by decide, by decide, by decide, by decide, by decide, by decide⟩

theorem dictGet_aliasFoldl (k : String) (e : ManifestTool) :
    ∀ (as : List String) (acc : List (String × ManifestTool)),
      dictGet k (as.foldl (fun a al => (al, e) :: a) acc)
        = if as.contains k then some e else dictGet k acc := by
  intro as
  induction as with
  | nil => intro acc; simp
  | cons a as ih =>
    intro acc
    rw [List.foldl_cons, ih ((a, e) :: acc)]
    by_cases hk : k ∈ as
    · simp [List.contains_cons, hk]
    · by_cases ha : k = a
      · simp [dictGet, List.contains_cons, hk, ha]
      · simp [dictGet, List.contains_cons, hk, ha]

theorem dictGet_indexWrites (k : String) (idx : List (String × ManifestTool))
    (t : ToolDefinition) :
    dictGet k (indexWrites idx t)
      = if matchesKey k t then some (toolDefEntry t) else dictGet k idx := by
  unfold indexWrites matchesKey
  rw [dictGet_aliasFoldl]
  by_cases hal : k ∈ t.aliases
  · simp [hal]
  · by_cases hn : k = t.name
    · simp [dictGet, hal, hn]
    · simp [dictGet, hal, hn]

theorem dictGet_buildToolIndex (ts : List ToolDefinition) (k : String) :
    dictGet k (buildToolIndex ts)
      = Option.map toolDefEntry ((ts.filter (fun t => matchesKey k t)).getLast?) := by
  induction ts using List.reverseRecOn with
  | nil => simp [buildToolIndex, dictGet]
  | append_singleton ts t ih =>
    have hb : buildToolIndex (ts ++ [t]) = indexWrites (buildToolIndex ts) t := by
      simp [buildToolIndex, List.foldl_append]
    rw [hb, dictGet_indexWrites]
    by_cases hm : matchesKey k t
    · simp [hm, List.filter_append, List.getLast?_concat]
    · simp [hm, List.filter_append, ih]

/-- C8: the `tool_index` of the manifest resolves every lookup key to the
entry of the last tool in traversal order whose name or alias list matches
the key (last-write-wins, never an error), and in particular it holds an
entry for every aggregated tool's name and for every one of its aliases. -/
theorem manifest_index_last_write_wins_c8 (skills : Registry) (skill_name k : String) :
    dictGet k (generate_tool_manifest skills skill_name).tool_index
      = Option.map toolDefEntry
        (((get_tools_for_skill skills skill_name).filter
          (fun t => matchesKey k t)).getLast?) ∧
    ∀ t ∈ get_tools_for_skill skills skill_name,
      (dictGet t.name (generate_tool_manifest skills skill_name).tool_index).isSome ∧
      ∀ a ∈ t.aliases,
        (dictGet a (generate_tool_manifest skills skill_name).tool_index).isSome := by
  have hidx : (generate_tool_manifest skills skill_name).tool_index
      = buildToolIndex (get_tools_for_skill skills skill_name) := rfl
  constructor
  · rw [hidx, dictGet_buildToolIndex]
  · intro t ht
    constructor
    · rw [hidx, dictGet_buildToolIndex]
      have hmem : t ∈ (get_tools_for_skill skills skill_name).filter
          (fun t' => matchesKey t.name t') :=
        List.mem_filter.2 ⟨ht, by simp [matchesKey]⟩
      have hne := List.ne_nil_of_mem hmem
      rw [Option.isSome_map']
      exact List.getLast?_isSome.2 hne
    · intro a ha
      rw [hidx, dictGet_buildToolIndex]
      have hmem : t ∈ (get_tools_for_skill skills skill_name).filter
          (fun t' => matchesKey a t') :=
        List.mem_filter.2 ⟨ht, by simp [matchesKey, ha]⟩
      have hne := List.ne_nil_of_mem hmem
      rw [Option.isSome_map']
      exact List.getLast?_isSome.2 hne

/-- C9: on a registry whose two skills reference each other through edges
with `required = false` and `auto_load = false`, the cycle detector reports
one cycle per entry point — each recorded as the sub-path from the first
occurrence of the revisited node through the repeat — and in particular at
least one reported cycle contains both names. -/
theorem detect_two_cycle_c9 (a b : String) (hab : a ≠ b) :
    detect_circular_dependencies (optionalCycleReg a b) = [[a, b, a], [b, a, b]] ∧
    ∃ c ∈ detect_circular_dependencies (optionalCycleReg a b), a ∈ c ∧ b ∈ c := by
  have hba : b ≠ a := Ne.symm hab
  have heq : detect_circular_dependencies (optionalCycleReg a b) = [[a, b, a], [b, a, b]] := by
    simp [detect_circular_dependencies, optionalCycleReg, mkSkill, dfsCycles, cyclesFold,
      dictGet, hab, hba]
  refine ⟨heq, ?_⟩
  rw [heq]
  exact ⟨[a, b, a], by simp, by simp, by simp⟩

/-- Witness for C9 at the concrete names `"A"` and `"B"`. -/
theorem detect_two_cycle_c9_witness :
    detect_circular_dependencies (optionalCycleReg "A" "B") = [["A", "B", "A"], ["B", "A", "B"]] ∧
    ∃ c ∈ detect_circular_dependencies (optionalCycleReg "A" "B"), "A" ∈ c ∧ "B" ∈ c :=
  detect_two_cycle_c9 "A" "B" (by decide)

theorem string_ne_of_data_getElem {s t : String} (i : Nat)
    (h : s.data[i]? ≠ t.data[i]?) : s ≠ t :=
  fun he => h (he ▸ rfl)

theorem envMsg_ne_depMsg (x y : String) :
    "Missing required environment variable: " ++ x ≠ "Missing dependency: '" ++ y := by
  apply string_ne_of_data_getElem 8
  rw [String.data_append, String.data_append,
    List.getElem?_append_left
      (show 8 < ("Missing required environment variable: ").data.length by decide),
    List.getElem?_append_left (show 8 < ("Missing dependency: '").data.length by decide)]
  decide

theorem envMsg_ne_toolNameMsg (x y : String) :
    "Missing required environment variable: " ++ x ≠ "Tool missing 'name' in skill '" ++ y := by
  apply string_ne_of_data_getElem 0
  rw [String.data_append, String.data_append,
    List.getElem?_append_left
      (show 0 < ("Missing required environment variable: ").data.length by decide),
    List.getElem?_append_left (show 0 < ("Tool missing 'name' in skill '").data.length by decide)]
  decide

theorem envMsg_ne_toolCatMsg (x y : String) :
    "Missing required environment variable: " ++ x ≠ "Tool '" ++ y := by
  apply string_ne_of_data_getElem 0
  rw [String.data_append, String.data_append,
    List.getElem?_append_left
      (show 0 < ("Missing required environment variable: ").data.length by decide),
    List.getElem?_append_left (show 0 < ("Tool '").data.length by decide)]
  decide

theorem string_append_left_cancel {p x y : String} (h : p ++ x = p ++ y) : x = y := by
  have hd := congrArg String.data h
  rw [String.data_append, String.data_append] at hd
  exact String.ext (List.append_cancel_left hd)

theorem envFalsy_iff (environ : List (String × String)) (n : String) :
    envFalsy environ n = true
      ↔ (dictGet n environ = none ∨ dictGet n environ = some "") := by
  unfold envFalsy
  cases h : dictGet n environ with
  | none => simp
  | some v => simp

/-- C3 counterexample: the variable `"E"` is present in the environment
with the empty string as value, yet `validate_skill` still emits the
missing-required-environment-variable message — refuting the claim that a
present variable, with any value, produces no such message. -/
theorem validate_env_c3_counterexample :
    "Missing required environment variable: E" ∈ validate_skill "S" envReg emptyValuedEnviron ∧
    dictGet "E" emptyValuedEnviron = some "" :=
  ⟨by decide, by decide⟩

/-- C3 (amended): for a skill in the registry and a required environment
requirement of that skill, `validate_skill` emits the message
`Missing required environment variable: <name>` if and only if the named
variable is absent from the process environment or is present with the
empty string as value (Python truthiness of `os.environ.get`). -/
theorem validate_env_message_c3 (skills : Registry) (skill_name : String) (sk : SkillMeta)
    (e : EnvironmentRequirement) (environ : List (String × String))
    (hsk : dictGet skill_name skills = some sk)
    (he : e ∈ sk.dependencies.environment) (hreq : e.required = true) :
    "Missing required environment variable: " ++ e.name
        ∈ validate_skill skill_name skills environ
      ↔ (dictGet e.name environ = none ∨ dictGet e.name environ = some "") := by
  unfold validate_skill
  rw [hsk]
  constructor
  · intro hmem
    rcases List.mem_append.1 hmem with hde | htool
    · rcases List.mem_append.1 hde with hdep | henv
      · exfalso
        obtain ⟨d, -, hmsg⟩ := List.mem_map.1 hdep
        refine envMsg_ne_depMsg e.name
          (d.name ++ ("' required by '" ++ (skill_name ++ "'"))) ?_
        rw [← hmsg]
        simp [String.append_assoc]
      · obtain ⟨e', he', hmsg⟩ := List.mem_map.1 henv
        have hname : e'.name = e.name := string_append_left_cancel hmsg
        have hcond := (List.mem_filter.1 he').2
        rw [Bool.and_eq_true] at hcond
        have := (envFalsy_iff environ e'.name).1 hcond.2
        rw [hname] at this
        exact this
    · exfalso
      obtain ⟨t, -, hmsg⟩ := List.mem_flatMap.1 htool
      rcases List.mem_append.1 hmsg with h1 | h2
      · by_cases hn : t.name = ""
        · rw [if_pos hn] at h1
          rw [List.mem_singleton] at h1
          refine envMsg_ne_toolNameMsg e.name (skill_name ++ "'") ?_
          rw [h1]
          simp [String.append_assoc]
        · rw [if_neg hn] at h1
          exact absurd h1 (List.not_mem_nil _)
      · by_cases hc : t.category = ""
        · rw [if_pos hc] at h2
          rw [List.mem_singleton] at h2
          refine envMsg_ne_toolCatMsg e.name
            (t.name ++ ("' missing 'category' in skill '" ++ (skill_name ++ "'"))) ?_
          rw [h2]
          simp [String.append_assoc]
        · rw [if_neg hc] at h2
          exact absurd h2 (List.not_mem_nil _)
  · intro hcond
    refine List.mem_append.2 (Or.inl (List.mem_append.2 (Or.inr ?_)))
    refine List.mem_map.2 ⟨e, List.mem_filter.2 ⟨he, ?_⟩, rfl⟩
    rw [hreq, Bool.true_and]
    exact (envFalsy_iff environ e.name).2 hcond

/-- Witness for the amended C3 at the concrete one-skill registry and the
empty environment (variable absent, message emitted). -/
theorem validate_env_message_c3_witness :
    ("Missing required environment variable: " ++ "E"
        ∈ validate_skill "S" envReg []
      ↔ (dictGet "E" ([] : List (String × String)) = none
        ∨ dictGet "E" ([] : List (String × String)) = some "")) :=
  validate_env_message_c3 envReg "S"
    { name := "S", description := "",
      dependencies := { environment := [{ name := "E", required := true }] } }
    { name := "E", required := true } [] (by decide) (by decide) (by decide)

theorem parse_skill_falsy {fm : Frontmatter} (h : fm.name.getD "" = "") :
    parse_skill fm = none := by
  unfold parse_skill
  rw [if_pos h]

theorem parse_skill_truthy {fm : Frontmatter} (h : ¬ fm.name.getD "" = "") :
    ∃ meta, parse_skill fm = some meta ∧ meta.name = fm.name.getD "" := by
  unfold parse_skill
  rw [if_neg h]
  exact ⟨_, rfl, rfl⟩

theorem dictGet_dictInsert_isSome {α : Type} (l : List (String × α)) (k k' : String) (v : α) :
    (dictGet k (dictInsert l k' v)).isSome = true
      ↔ k = k' ∨ (dictGet k l).isSome = true := by
  induction l with
  | nil =>
    by_cases h : k = k'
    · simp [dictInsert, dictGet, h]
    · simp [dictInsert, dictGet, h]
  | cons p rest ih =>
    rcases p with ⟨k0, v0⟩
    by_cases h0 : k0 = k'
    · by_cases hk : k = k'
      · simp [dictInsert, dictGet, h0, hk]
      · simp [dictInsert, dictGet, h0, hk]
    · by_cases hk0 : k = k0
      · simp [dictInsert, dictGet, h0, hk0]
      · simp [dictInsert, dictGet, h0, hk0, ih]

theorem collectStep_preserves {k : String} {l : Registry} (fm : Frontmatter)
    (h : (dictGet k l).isSome = true) : (dictGet k (collectStep l fm)).isSome = true := by
  unfold collectStep
  cases hp : parse_skill fm with
  | none => exact h
  | some meta => exact (dictGet_dictInsert_isSome l k meta.name meta).2 (Or.inr h)

theorem foldl_collectStep_preserves (sources : List Frontmatter) :
    ∀ (init : Registry) (k : String), (dictGet k init).isSome = true →
      (dictGet k (sources.foldl collectStep init)).isSome = true := by
  induction sources with
  | nil => intro init k h; exact h
  | cons s rest ih =>
    intro init k h
    rw [List.foldl_cons]
    exact ih (collectStep init s) k (collectStep_preserves s h)

theorem collect_key_present (sources : List Frontmatter) :
    ∀ (init : Registry) (fm : Frontmatter), fm ∈ sources → fm.name.getD "" ≠ "" →
      (dictGet (fm.name.getD "") (sources.foldl collectStep init)).isSome = true := by
  induction sources with
  | nil => intro init fm h _; exact absurd h (List.not_mem_nil fm)
  | cons s rest ih =>
    intro init fm hmem hname
    rw [List.foldl_cons]
    rcases List.mem_cons.1 hmem with heq | hmem'
    · subst heq
      obtain ⟨meta, hp, hn⟩ := parse_skill_truthy hname
      apply foldl_collectStep_preserves rest
      show (dictGet (fm.name.getD "") (collectStep init fm)).isSome = true
      unfold collectStep
      rw [hp]
      exact (dictGet_dictInsert_isSome init _ meta.name meta).2 (Or.inl hn.symm)
    · exact ih (collectStep init s) fm hmem' hname

theorem collect_filter_eq (sources : List Frontmatter) :
    ∀ init : Registry,
      sources.foldl collectStep init
        = (sources.filter (fun s => s.name.getD "" != "")).foldl collectStep init := by
  induction sources with
  | nil => intro init; rfl
  | cons s rest ih =>
    intro init
    by_cases hs : s.name.getD "" = ""
    · have hstep : collectStep init s = init := by
        unfold collectStep
        rw [parse_skill_falsy hs]
      have hfil : (s :: rest).filter (fun s' => s'.name.getD "" != "")
          = rest.filter (fun s' => s'.name.getD "" != "") := by
        simp [List.filter_cons, hs]
      rw [List.foldl_cons, hstep, hfil, ih]
    · have hfil : (s :: rest).filter (fun s' => s'.name.getD "" != "")
          = s :: rest.filter (fun s' => s'.name.getD "" != "") := by
        simp [List.filter_cons, hs]
      rw [List.foldl_cons, hfil, List.foldl_cons, ih]

/-- C2 counterexample: a source whose frontmatter has a name but no
description is NOT excluded — `collect_all_skills` keeps an entry for it
(its description defaults to the empty string), refuting the claim that a
source lacking a description is dropped from the registry. -/
theorem collect_c2_counterexample :
    (dictGet "A" (collect_all_skills [noDescriptionSource])).isSome = true ∧
    noDescriptionSource.description = none :=
  ⟨by decide, rfl⟩

/-- C2 (amended): only a missing (or empty) `name` excludes a source, and
the exclusion is silent — the registry built from all sources equals the
one built from just the sources with a truthy name; every source with a
truthy name yields a registry entry under that name, whether or not a
description is present. -/
theorem collect_name_only_c2 (sources : List Frontmatter) (fm : Frontmatter)
    (hmem : fm ∈ sources) (hname : fm.name.getD "" ≠ "") :
    collect_all_skills sources
      = collect_all_skills (sources.filter (fun s => s.name.getD "" != "")) ∧
    (dictGet (fm.name.getD "") (collect_all_skills sources)).isSome = true := by
  constructor
  · unfold collect_all_skills
    exact collect_filter_eq sources []
  · exact collect_key_present sources [] fm hmem hname

/-- Witness for the amended C2 at the concrete description-less source. -/
theorem collect_name_only_c2_witness :
    collect_all_skills [noDescriptionSource]
      = collect_all_skills
        ([noDescriptionSource].filter (fun s => s.name.getD "" != "")) ∧
    (dictGet (noDescriptionSource.name.getD "")
      (collect_all_skills [noDescriptionSource])).isSome = true :=
  collect_name_only_c2 [noDescriptionSource] noDescriptionSource
    (List.mem_singleton.2 rfl) (by decide)
